import Mathlib

/-!
Verification of the batching/compaction engine of the GooseFX referral CLI
(src/main.rs and src/utils.rs), as a shallow embedding in Lean 4.

On-chain 32-byte addresses (Solana pubkeys) are modelled as natural numbers:
only equality of addresses is relevant to the properties below.
-/

namespace ReferralCli

/-- 32-byte on-chain addresses; only equality matters here, so they are
modelled as natural numbers. -/
abbrev Pubkey := Nat

/-- Max number of addresses a LUT can contain (src/main.rs). -/
def MAX_LUT_SIZE : Nat := 256

/-- How many accounts each init-token-account instruction needs (src/main.rs). -/
def INIT_REFERRAL_ATA_ACCOUNTS_LEN : Nat := 7

/-- Max number of accounts that can fit in a legacy transaction (src/main.rs). -/
def MAX_LEGACY_ACCOUNTS : Nat := 32

/-- Default (and maximum) extend-chunk size (src/utils.rs). -/
def DEFAULT_MAX_EXTEND_SIZE : Nat := 20

/-- Fuel-indexed core of Rust `slice::chunks`: peel off `c` elements at a
time while fuel lasts.  It is always called with `fuel = l.length`, which is
enough fuel whenever `0 < c`. -/
def chunksAux (c : Nat) : Nat → List α → List (List α)
  | 0, _ => []
  | _ + 1, [] => []
  | fuel + 1, a :: as => (a :: as).take c :: chunksAux c fuel ((a :: as).drop c)

/-- Rust `slice::chunks c` for `0 < c`: consecutive chunks of length `c`,
the last one possibly shorter, in order. -/
def chunksPos (c : Nat) (l : List α) : List (List α) :=
  chunksAux c l.length l

/-- Rust `slice::chunks`, with the panic at chunk size 0 modelled as `none`. -/
def rustChunks (c : Nat) (l : List α) : Option (List (List α)) :=
  if c = 0 then none else some (chunksPos c l)

theorem chunksAux_flatten (c : Nat) (hc : 0 < c) :
    ∀ (fuel : Nat) (l : List α), l.length ≤ fuel → (chunksAux c fuel l).flatten = l := by
  intro fuel
  induction fuel with
  | zero =>
    intro l hl
    have h0 : l = [] := List.length_eq_zero.mp (Nat.le_zero.mp hl)
    subst h0; rfl
  | succ fuel ih =>
    intro l hl
    match l with
    | [] => rfl
    | a :: as =>
      have hd : ((a :: as).drop c).length ≤ fuel := by
        simp only [List.length_drop, List.length_cons]
        simp only [List.length_cons] at hl
        omega
      simp only [chunksAux, List.flatten_cons, ih _ hd, List.take_append_drop]

theorem chunksAux_sizes (c : Nat) :
    ∀ (fuel : Nat) (l : List α), ∀ ch ∈ chunksAux c fuel l, ch.length ≤ c := by
  intro fuel
  induction fuel with
  | zero => intro l ch hch; simp [chunksAux] at hch
  | succ fuel ih =>
    intro l ch hch
    match l with
    | [] => simp [chunksAux] at hch
    | a :: as =>
      simp only [chunksAux, List.mem_cons] at hch
      rcases hch with h | h
      · subst h
        simp
      · exact ih _ ch h

theorem chunksAux_count (c : Nat) (hc : 0 < c) :
    ∀ (fuel : Nat) (l : List α), l.length ≤ fuel →
      (chunksAux c fuel l).length = (l.length + c - 1) / c := by
  intro fuel
  induction fuel with
  | zero =>
    intro l hl
    have h0 : l = [] := List.length_eq_zero.mp (Nat.le_zero.mp hl)
    subst h0
    simp only [chunksAux, List.length_nil]
    exact (Nat.div_eq_of_lt (by omega)).symm
  | succ fuel ih =>
    intro l hl
    match l with
    | [] =>
      simp only [chunksAux, List.length_nil]
      exact (Nat.div_eq_of_lt (by omega)).symm

    | a :: as =>
      have hd : ((a :: as).drop c).length ≤ fuel := by
        simp only [List.length_drop, List.length_cons]
        simp only [List.length_cons] at hl
        omega
      simp only [chunksAux, List.length_cons, ih _ hd, List.length_drop,
        List.length_cons]
      have h2 : as.length + 1 + c - 1 = as.length + c := by omega
      rw [h2, Nat.add_div_right _ hc]
      rcases le_or_lt c (as.length + 1) with h | h
      · have h1 : as.length + 1 - c + c - 1 = as.length := by omega
        rw [h1]
      · have h1 : as.length + 1 - c + c - 1 = c - 1 := by omega
        rw [h1, Nat.div_eq_of_lt (by omega), Nat.div_eq_of_lt (by omega)]

theorem chunksPos_flatten (c : Nat) (hc : 0 < c) (l : List α) :
    (chunksPos c l).flatten = l :=
  chunksAux_flatten c hc l.length l le_rfl

theorem chunksPos_sizes (c : Nat) (l : List α) :
    ∀ ch ∈ chunksPos c l, ch.length ≤ c :=
  chunksAux_sizes c l.length l

theorem chunksPos_count (c : Nat) (hc : 0 < c) (l : List α) :
    (chunksPos c l).length = (l.length + c - 1) / c :=
  chunksAux_count c hc l.length l le_rfl

theorem chunksPos_sum_sizes (c : Nat) (hc : 0 < c) (l : List α) :
    ((chunksPos c l).map List.length).sum = l.length := by
  rw [← List.length_flatten, chunksPos_flatten c hc l]

/-- One planned network transaction of the CreateReferralTokenAccounts
command (src/main.rs): the target mints whose init-token-account descriptors
it carries (one descriptor per mint) and whether an address lookup table is
attached to it. -/
structure TransactionPlan where
  descriptors : List Pubkey
  usesLookupTable : Bool
deriving DecidableEq

/-- The threshold test of src/main.rs:
`mints.len() < MAX_LEGACY_ACCOUNTS / INIT_REFERRAL_ATA_ACCOUNTS_LEN`.
Note the integer division: `32 / 7 = 4`. -/
def fits_legacy_transaction (mints : List Pubkey) : Bool :=
  mints.length < MAX_LEGACY_ACCOUNTS / INIT_REFERRAL_ATA_ACCOUNTS_LEN

/-- The CreateReferralTokenAccounts planner of src/main.rs: below the
threshold, a single legacy transaction holding all descriptors and no lookup
table; otherwise one V0 transaction per chunk of
`MAX_LUT_SIZE / INIT_REFERRAL_ATA_ACCOUNTS_LEN = 36` mints, each chunk backed
by its own lookup table. -/
def planTransactions (mints : List Pubkey) : List TransactionPlan :=
  if fits_legacy_transaction mints then
    [⟨mints, false⟩]
  else
    (chunksPos (MAX_LUT_SIZE / INIT_REFERRAL_ATA_ACCOUNTS_LEN) mints).map
      fun chunk => ⟨chunk, true⟩

/-- The `collect::<HashSet<_>>().into_iter().collect::<Vec<_>>()` step of
src/main.rs.  Rust's std HashSet uses a randomly seeded hasher (RandomState),
so its iteration order is unspecified and varies between processes: any
permutation of the deduplicated input is a possible output.
`hashSetOrder l out` states that `out` is a possible materialization of the
set of elements of `l`. -/
def hashSetOrder (l out : List Pubkey) : Prop :=
  out.Perm l.dedup

instance (l out : List Pubkey) : Decidable (hashSetOrder l out) := by
  unfold hashSetOrder; infer_instance

/-- The mint-loading pipeline of CreateReferralTokenAccounts (src/main.rs) up
to deduplication: parse every raw string, keep the successes
(`filter_map(|p| Pubkey::from_str(&p).ok())`), then remove duplicates.  The
external base58 parser is passed as a parameter.  The order in which the
HashSet materializes this list is described by `hashSetOrder`. -/
def parsedTargets (parse : String → Option Pubkey) (raws : List String) :
    List Pubkey :=
  (raws.filterMap parse).dedup

/-- Effective extend-chunk size of create_and_extend_lookup_table
(src/utils.rs):
`chunk_size.map(|s| min(s, DEFAULT_MAX_EXTEND_SIZE)).unwrap_or(DEFAULT_MAX_EXTEND_SIZE)`. -/
def effectiveChunkSize : Option Nat → Nat
  | some size => min size DEFAULT_MAX_EXTEND_SIZE
  | none => DEFAULT_MAX_EXTEND_SIZE

/-- The sequence of extend operations issued by the loop of
create_and_extend_lookup_table (src/utils.rs): the i-th operation submits the
i-th chunk of the address list. -/
def extendOps (c : Nat) (addrs : List Pubkey) : List (Nat × List Pubkey) :=
  (chunksPos c addrs).enum

/-- The extend loop of create_and_extend_lookup_table (src/utils.rs): each
chunk is submitted in order through `send` (the send_and_confirm call for
that chunk's extend instruction); the `?` operator aborts at the first
failure and returns that failure's error value unchanged.  On success the
list of confirmation signatures is returned. -/
def runExtendLoop {E S : Type} (send : Nat → List Pubkey → Except E S) :
    List (Nat × List Pubkey) → Except E (List S)
  | [] => Except.ok []
  | (i, chunk) :: rest =>
    match send i chunk with
    | Except.error e => Except.error e
    | Except.ok sig =>
      match runExtendLoop send rest with
      | Except.error e => Except.error e
      | Except.ok sigs => Except.ok (sig :: sigs)

/-- Number of leading chunks confirmed before the first failing one. -/
def confirmedChunks {E S : Type} (send : Nat → List Pubkey → Except E S) :
    List (Nat × List Pubkey) → Nat
  | [] => 0
  | (i, chunk) :: rest =>
    match send i chunk with
    | Except.error _ => 0
    | Except.ok _ => confirmedChunks send rest + 1

/-- Submission oracle for which already the first extend transaction fails,
with underlying RPC error 7. -/
def sendFailFirst : Nat → List Pubkey → Except Nat Nat :=
  fun _ _ => Except.error 7

/-- Submission oracle for which chunk 0 confirms (signature 0) and chunk 1
fails with the same underlying RPC error 7. -/
def sendFailSecond : Nat → List Pubkey → Except Nat Nat :=
  fun i _ => if i = 0 then Except.ok 0 else Except.error 7

/-- Decoded address lookup table account (as built by src/utils.rs): the
table's key plus its decoded address list. -/
structure AddressLookupTableAccount where
  key : Pubkey
  addresses : List Pubkey
deriving DecidableEq

/-- fetch_address_lookup_tables (src/utils.rs): zip the multi-account RPC
response with the requested keys; a key whose account is missing (`None` in
the response) or whose account data fails to deserialize is dropped by the
`filter_map`/`flatten`, and the remaining ones are decoded, preserving the
request order.  `results` is the `get_multiple_accounts` response (one entry
per key, in key order) and `deserialize` the external
`AddressLookupTable::deserialize`. -/
def fetch_address_lookup_tables {B : Type} (deserialize : B → Option (List Pubkey))
    (results : List (Option B)) (keys : List Pubkey) :
    List AddressLookupTableAccount :=
  (results.zip keys).filterMap fun p =>
    p.1.bind fun acc => (deserialize acc).map fun addrs => ⟨p.2, addrs⟩

/-- Modelled from the spec: `create_lookup_table` (solana-sdk, not part of
src/) derives the lookup-table address deterministically from the authority
and the freshness token passed to it — the recent slot fetched in
create_and_extend_lookup_table (src/utils.rs).  Per spec section 4.2,
creation is "seeded with a freshness token (a recent ledger height) to
guarantee global uniqueness of the resulting address": distinct tokens give
distinct addresses, and the derivation itself is deterministic.  An injective
pairing stands in for the hash-based derivation. -/
def deriveLookupTableAddress (authority : Pubkey) (recentSlot : Nat) : Pubkey :=
  Nat.pair authority recentSlot

/-- The creation step of create_and_extend_lookup_table (src/utils.rs):
observe a recent slot via get_slot and derive the table address from the
authority (the keypair's pubkey) and that slot. -/
def createTableAddr (owner slot : Nat) : Pubkey :=
  deriveLookupTableAddress owner slot

/-- Slots observed by two sequential `get_slot` calls: the chain slot is
nondecreasing over time, and both calls may well land in the same slot. -/
def slotPairOk (s₁ s₂ : Nat) : Prop := s₁ ≤ s₂

instance (s₁ s₂ : Nat) : Decidable (slotPairOk s₁ s₂) := by
  unfold slotPairOk; infer_instance

theorem enumFrom_map_fst (n : Nat) (l : List α) :
    (l.enumFrom n).map Prod.fst = List.range' n l.length := by
  induction l generalizing n with
  | nil => rfl
  | cons a as ih => simp [List.enumFrom, List.range', ih]

theorem enumFrom_map_snd (n : Nat) (l : List α) :
    (l.enumFrom n).map Prod.snd = l := by
  induction l generalizing n with
  | nil => rfl
  | cons a as ih => simp [List.enumFrom, ih]

theorem range'_pairwise_lt (s n : Nat) : (List.range' s n).Pairwise (· < ·) := by
  induction n generalizing s with
  | zero => simp [List.range']
  | succ n ih =>
    simp only [List.range']
    refine List.Pairwise.cons ?_ (ih (s + 1))
    intro b hb
    have h := List.mem_range'_1.mp hb
    omega

theorem enum_map_fst (l : List α) : l.enum.map Prod.fst = List.range' 0 l.length :=
  enumFrom_map_fst 0 l

theorem enum_map_snd (l : List α) : l.enum.map Prod.snd = l :=
  enumFrom_map_snd 0 l

/-- C1 counterexample: for the deduplicated target set `[0, 1, 2, 3]` of size
`n = 4` we have `n * K = 28 < 32 = direct_ceiling`, yet the planner does not
select Direct: the emitted TransactionPlan carries a compaction table.  The
code's threshold is `n < 32 / 7 = 4` with integer division, which excludes
`n = 4`. -/
theorem four_mints_not_direct :
    4 * INIT_REFERRAL_ATA_ACCOUNTS_LEN < MAX_LEGACY_ACCOUNTS ∧
    planTransactions [0, 1, 2, 3] =
      [{ descriptors := [0, 1, 2, 3], usesLookupTable := true }] := by
  decide

/-- C1 (amended): for every deduplicated target list whose size is below the
code's threshold `⌊direct_ceiling / K⌋ = ⌊32 / 7⌋ = 4` (integer division,
not `n * K < direct_ceiling`), the planner selects Direct and produces
exactly one TransactionPlan containing exactly the `n` descriptors and no
compaction table. -/
theorem direct_strategy_below_floor_threshold (mints : List Pubkey)
    (h : mints.length < MAX_LEGACY_ACCOUNTS / INIT_REFERRAL_ATA_ACCOUNTS_LEN) :
    planTransactions mints = [{ descriptors := mints, usesLookupTable := false }] ∧
    (planTransactions mints).length = 1 := by
  have hp : planTransactions mints =
      [{ descriptors := mints, usesLookupTable := false }] := by
    simp [planTransactions, fits_legacy_transaction, h]
  exact ⟨hp, by rw [hp]; rfl⟩

/-- C1 witness: three mints, `3 < 32 / 7 = 4`, give a single Direct plan. -/
theorem direct_strategy_witness :
    planTransactions [5, 9, 11] =
      [{ descriptors := [5, 9, 11], usesLookupTable := false }] ∧
    (planTransactions [5, 9, 11]).length = 1 :=
  direct_strategy_below_floor_threshold [5, 9, 11] (by decide)

/-- C2: with `m` addresses and effective chunk size `0 < c`, the extend loop
issues exactly `⌈m / c⌉` operations, each covering at most `c` addresses,
with strictly increasing chunk indices, and the concatenation of the
submitted chunks is the input address sequence in its original order. -/
theorem extend_chunking_spec (addrs : List Pubkey) (c : Nat) (hc : 0 < c) :
    (extendOps c addrs).length = (addrs.length + c - 1) / c ∧
    (∀ op ∈ extendOps c addrs, op.2.length ≤ c) ∧
    ((extendOps c addrs).map Prod.fst).Pairwise (· < ·) ∧
    ((extendOps c addrs).map Prod.snd).flatten = addrs := by
  refine ⟨?_, ?_, ?_, ?_⟩
  · rw [extendOps, List.enum_length, chunksPos_count c hc addrs]
  · intro op hop
    have h2 := List.mem_map_of_mem Prod.snd hop
    rw [extendOps, enum_map_snd (chunksPos c addrs)] at h2
    exact chunksPos_sizes c addrs op.2 h2
  · rw [extendOps, enum_map_fst (chunksPos c addrs)]
    exact range'_pairwise_lt 0 (chunksPos c addrs).length
  · rw [extendOps, enum_map_snd (chunksPos c addrs)]
    exact chunksPos_flatten c hc addrs

/-- C2 witness: five addresses and chunk size 2 give three ordered chunks
that concatenate back to the input. -/
theorem extend_chunking_witness :
    (extendOps 2 [1, 2, 3, 4, 5]).length = ([1, 2, 3, 4, 5].length + 2 - 1) / 2 ∧
    (∀ op ∈ extendOps 2 [1, 2, 3, 4, 5], op.2.length ≤ 2) ∧
    ((extendOps 2 [1, 2, 3, 4, 5]).map Prod.fst).Pairwise (· < ·) ∧
    ((extendOps 2 [1, 2, 3, 4, 5]).map Prod.snd).flatten = [1, 2, 3, 4, 5] :=
  extend_chunking_spec [1, 2, 3, 4, 5] 2 (by decide)

/-- C3 counterexample: two runs over the same two-chunk extend plan — one in
which the first chunk already fails, one in which the first chunk confirms
and the second fails with the same underlying RPC error — return the very
same error value even though the counts of successfully appended chunks
differ (0 versus 1).  The returned failure therefore carries neither the
failing chunk index nor the count of prior successes: the `?` operator
propagates the bare underlying error. -/
theorem extend_error_lacks_progress_count :
    runExtendLoop sendFailFirst (extendOps 1 [100, 200]) =
      runExtendLoop sendFailSecond (extendOps 1 [100, 200]) ∧
    confirmedChunks sendFailFirst (extendOps 1 [100, 200]) = 0 ∧
    confirmedChunks sendFailSecond (extendOps 1 [100, 200]) = 1 :=
  ⟨rfl, rfl, rfl⟩

/-- C3 (amended): if, during a multi-chunk extend, every chunk before some
operation confirms and that operation fails, the loop aborts and returns the
underlying error of the failing submission unchanged — regardless of how
many chunks had succeeded, so the failure carries no count of prior
successes and no failing chunk index. -/
theorem extend_first_failure_error_unchanged {E S : Type}
    (send : Nat → List Pubkey → Except E S) (pre post : List (Nat × List Pubkey))
    (op : Nat × List Pubkey) (e : E)
    (hok : ∀ o ∈ pre, ∃ s, send o.1 o.2 = Except.ok s)
    (hfail : send op.1 op.2 = Except.error e) :
    runExtendLoop send (pre ++ op :: post) = Except.error e := by
  obtain ⟨i, chunk⟩ := op
  have hfail2 : send i chunk = Except.error e := hfail
  induction pre with
  | nil =>
    simp only [List.nil_append, runExtendLoop]
    rw [hfail2]
  | cons o pre ih =>
    obtain ⟨j, cj⟩ := o
    obtain ⟨s, hs⟩ := hok (j, cj) (List.mem_cons_self _ _)
    have hs2 : send j cj = Except.ok s := hs
    have ih2 := ih (fun o ho => hok o (List.mem_cons_of_mem _ ho))
    simp only [List.cons_append, runExtendLoop, hs2, List.append_eq]
    rw [ih2]

/-- C3 witness: chunk 0 confirms and chunk 1 fails with error 7; the loop
returns exactly that error. -/
theorem extend_first_failure_witness :
    runExtendLoop sendFailSecond [(0, [100]), (1, [200])] = Except.error 7 :=
  extend_first_failure_error_unchanged sendFailSecond [(0, [100])] [] (1, [200]) 7
    (by
      intro o ho
      rw [List.mem_singleton] at ho
      subst ho
      exact ⟨0, rfl⟩)
    rfl

/-- C4 counterexample: for the same two-element input mint list, both
`[0, 1]` and `[1, 0]` are possible materializations of the deduplicating
HashSet (its iteration order depends on the hasher's random seed, which
varies between runs), and they differ — so the processing order of the
distinct targets is not a deterministic function of the input list, and the
code does not sort. -/
theorem hashset_order_not_deterministic :
    hashSetOrder [0, 1] [0, 1] ∧ hashSetOrder [0, 1] [1, 0] ∧
      ([0, 1] : List Pubkey) ≠ [1, 0] := by
  decide

/-- C4 (amended): any two materializations of the deduplicated target set of
the same input list are permutations of each other — the set's membership
and its size are deterministic — but the order may differ between runs. -/
theorem hashset_materializations_agree_up_to_perm (l o₁ o₂ : List Pubkey)
    (h₁ : hashSetOrder l o₁) (h₂ : hashSetOrder l o₂) :
    o₁.Perm o₂ ∧ o₁.length = o₂.length ∧ ∀ x, x ∈ o₁ ↔ x ∈ o₂ := by
  have hp : o₁.Perm o₂ := h₁.trans h₂.symm
  exact ⟨hp, hp.length_eq, fun x => hp.mem_iff⟩

/-- C4 witness: the two materializations of the set of `[0, 1, 0]` agree up
to permutation. -/
theorem hashset_perm_witness :
    ([1, 0] : List Pubkey).Perm [0, 1] ∧
    ([1, 0] : List Pubkey).length = ([0, 1] : List Pubkey).length ∧
    ∀ x : Pubkey, x ∈ ([1, 0] : List Pubkey) ↔ x ∈ ([0, 1] : List Pubkey) :=
  hashset_materializations_agree_up_to_perm [0, 1, 0] [1, 0] [0, 1]
    (by decide) (by decide)

/-- C5: for every deduplicated target list with `n * K ≥ direct_ceiling`,
the planner selects Compacted, partitions the targets into chunks of size at
most `⌊MAX_LUT_SIZE / K⌋ = ⌊256 / 7⌋ = 36`, produces `⌈n / 36⌉` plans (each
chunk backed by a lookup table) whose sizes sum to `n`, and the smaller
final chunk is emitted, not dropped (the chunks concatenate back to the
whole target list). -/
theorem compacted_strategy_chunking (mints : List Pubkey)
    (h : MAX_LEGACY_ACCOUNTS ≤ mints.length * INIT_REFERRAL_ATA_ACCOUNTS_LEN) :
    fits_legacy_transaction mints = false ∧
    (∀ p ∈ planTransactions mints,
        p.descriptors.length ≤ MAX_LUT_SIZE / INIT_REFERRAL_ATA_ACCOUNTS_LEN ∧
        p.usesLookupTable = true) ∧
    (planTransactions mints).length =
      (mints.length + MAX_LUT_SIZE / INIT_REFERRAL_ATA_ACCOUNTS_LEN - 1) /
        (MAX_LUT_SIZE / INIT_REFERRAL_ATA_ACCOUNTS_LEN) ∧
    ((planTransactions mints).map (fun p => p.descriptors.length)).sum =
      mints.length ∧
    ((planTransactions mints).map (fun p => p.descriptors)).flatten = mints := by
  have hpos : 0 < MAX_LUT_SIZE / INIT_REFERRAL_ATA_ACCOUNTS_LEN := by decide
  have hn : ¬ (mints.length < MAX_LEGACY_ACCOUNTS / INIT_REFERRAL_ATA_ACCOUNTS_LEN) := by
    simp only [MAX_LEGACY_ACCOUNTS, INIT_REFERRAL_ATA_ACCOUNTS_LEN] at h ⊢
    omega
  have hfit : fits_legacy_transaction mints = false := by
    unfold fits_legacy_transaction
    exact decide_eq_false hn
  have hplan : planTransactions mints =
      (chunksPos (MAX_LUT_SIZE / INIT_REFERRAL_ATA_ACCOUNTS_LEN) mints).map
        (fun chunk => ⟨chunk, true⟩) := by
    unfold planTransactions
    rw [hfit]
    rfl
  refine ⟨hfit, ?_, ?_, ?_, ?_⟩
  · intro p hp
    rw [hplan] at hp
    obtain ⟨chunk, hchunk, hpe⟩ := List.mem_map.mp hp
    subst hpe
    exact ⟨chunksPos_sizes _ mints chunk hchunk, rfl⟩
  · rw [hplan, List.length_map]
    exact chunksPos_count _ hpos mints
  · rw [hplan, List.map_map]
    exact chunksPos_sum_sizes _ hpos mints
  · rw [hplan, List.map_map]
    have hid : ((fun p => p.descriptors) ∘
        fun chunk : List Pubkey => (⟨chunk, true⟩ : TransactionPlan)) = id := rfl
    rw [hid, List.map_id]
    exact chunksPos_flatten _ hpos mints

/-- C5 witness: five mints (`5 * 7 = 35 ≥ 32`) give one compacted plan of
size 5 — the smaller final chunk is emitted. -/
theorem compacted_strategy_witness :
    fits_legacy_transaction [1, 2, 3, 4, 5] = false ∧
    (planTransactions [1, 2, 3, 4, 5]).length = 1 ∧
    ((planTransactions [1, 2, 3, 4, 5]).map (fun p => p.descriptors.length)).sum = 5 := by
  have h := compacted_strategy_chunking [1, 2, 3, 4, 5] (by decide)
  refine ⟨h.1, ?_, ?_⟩
  · rw [h.2.2.1]; decide
  · exact h.2.2.2.1

/-- C6: the effective count `n` the planner works with — the length of the
materialized deduplicated list — equals the number of distinct entries of
the input list, whatever order the HashSet yields. -/
theorem planner_count_is_distinct_count (l out : List Pubkey)
    (h : hashSetOrder l out) :
    out.length = l.dedup.length ∧ out.length = l.toFinset.card := by
  refine ⟨h.length_eq, ?_⟩
  rw [List.card_toFinset]
  exact h.length_eq

/-- C6 witness: the list `[3, 3, 7]` has two distinct entries and its
materialization `[7, 3]` has length 2. -/
theorem planner_count_witness :
    ([7, 3] : List Pubkey).length = ([3, 3, 7] : List Pubkey).dedup.length ∧
    ([7, 3] : List Pubkey).length = ([3, 3, 7] : List Pubkey).toFinset.card :=
  planner_count_is_distinct_count [3, 3, 7] [7, 3] (by decide)

/-- C7: for every mix of valid, missing and corrupt table addresses,
fetch_address_lookup_tables returns an entry exactly for each valid address
(with its decoded entries), omits the missing and corrupt ones, and — being
a total filter over the batch response — never fails because of a missing or
corrupt address. -/
theorem fetch_tables_best_effort {B : Type} (chain : Pubkey → Option B)
    (deserialize : B → Option (List Pubkey)) (keys : List Pubkey) :
    (∀ t ∈ fetch_address_lookup_tables deserialize (keys.map chain) keys,
        ∃ b, chain t.key = some b ∧ deserialize b = some t.addresses) ∧
    (∀ k ∈ keys, ∀ b addrs, chain k = some b → deserialize b = some addrs →
        (⟨k, addrs⟩ : AddressLookupTableAccount) ∈
          fetch_address_lookup_tables deserialize (keys.map chain) keys) ∧
    fetch_address_lookup_tables deserialize (keys.map chain) keys =
      keys.filterMap fun k =>
        (chain k).bind fun acc => (deserialize acc).map fun addrs => ⟨k, addrs⟩ := by
  have hz : (keys.map chain).zip keys = keys.map fun k => (chain k, k) := by
    have h1 := List.zip_map' chain id keys
    simpa using h1
  have heq : fetch_address_lookup_tables deserialize (keys.map chain) keys =
      keys.filterMap fun k =>
        (chain k).bind fun acc => (deserialize acc).map fun addrs => ⟨k, addrs⟩ := by
    unfold fetch_address_lookup_tables
    rw [hz, List.filterMap_map]
    rfl
  refine ⟨?_, ?_, heq⟩
  · intro t ht
    rw [heq] at ht
    obtain ⟨k, hk, hf⟩ := List.mem_filterMap.mp ht
    cases hb : chain k with
    | none => rw [hb] at hf; simp at hf
    | some b =>
      rw [hb] at hf
      have hf2 : Option.map (fun addrs => ({ key := k, addresses := addrs } :
          AddressLookupTableAccount)) (deserialize b) = some t := hf
      cases hd : deserialize b with
      | none => rw [hd] at hf2; simp at hf2
      | some addrs =>
        rw [hd] at hf2
        simp only [Option.map_some', Option.some.injEq] at hf2
        subst hf2
        exact ⟨b, hb, hd⟩
  · intro k hk b addrs hb hd
    rw [heq]
    refine List.mem_filterMap.mpr ⟨k, hk, ?_⟩
    rw [hb]
    simp [hd]

/-- C8: the effective extend-chunk size is `min(requested, 20)` when a chunk
size is requested and 20 by default, so every submitted extend chunk holds
at most 20 addresses (when the requested size is 0, `slice::chunks` panics
and no chunk at all is submitted, modelled by `rustChunks` returning
`none`). -/
theorem effective_chunk_size_spec :
    (∀ s, effectiveChunkSize (some s) = min s DEFAULT_MAX_EXTEND_SIZE) ∧
    effectiveChunkSize none = DEFAULT_MAX_EXTEND_SIZE ∧
    (∀ (req : Option Nat) (addrs : List Pubkey) (cs : List (List Pubkey)),
        rustChunks (effectiveChunkSize req) addrs = some cs →
        ∀ chunk ∈ cs, chunk.length ≤ DEFAULT_MAX_EXTEND_SIZE) := by
  refine ⟨fun s => rfl, rfl, ?_⟩
  intro req addrs cs hcs chunk hchunk
  have hle : effectiveChunkSize req ≤ DEFAULT_MAX_EXTEND_SIZE := by
    cases req with
    | none => exact le_rfl
    | some s => exact Nat.min_le_right s DEFAULT_MAX_EXTEND_SIZE
  unfold rustChunks at hcs
  by_cases h0 : effectiveChunkSize req = 0
  · rw [if_pos h0] at hcs; cases hcs
  · rw [if_neg h0] at hcs
    have hcs2 : cs = chunksPos (effectiveChunkSize req) addrs :=
      (Option.some.inj hcs).symm
    subst hcs2
    exact le_trans (chunksPos_sizes _ addrs chunk hchunk) hle

/-- C9 counterexample: the table address is derived deterministically from
the authority and the observed recent slot; two sequential calls may
perfectly well observe the same slot (the chain slot is nondecreasing, not
strictly increasing across two quick calls), and then they derive the very
same address — so two sequential create calls are not guaranteed to yield
distinct table addresses. -/
theorem create_table_same_slot_same_address :
    slotPairOk 5 5 ∧ createTableAddr 3 5 = createTableAddr 3 5 := by
  exact ⟨by decide, rfl⟩

/-- C9 (amended): two sequential create calls yield distinct table addresses
whenever the recent slots they observe differ; the derivation is
deterministic in (authority, slot), so equal slots yield the same address
and the code does not itself ensure the slot advances between calls. -/
theorem create_table_distinct_slots_distinct_addresses (owner s₁ s₂ : Nat)
    (hseq : slotPairOk s₁ s₂) (hne : s₁ ≠ s₂) :
    createTableAddr owner s₁ ≠ createTableAddr owner s₂ := by
  intro heq
  unfold createTableAddr deriveLookupTableAddress at heq
  exact hne (Nat.pair_eq_pair.mp heq).2

/-- C9 witness: slots 5 and 6 give distinct table addresses. -/
theorem create_table_distinct_witness :
    createTableAddr 3 5 ≠ createTableAddr 3 6 :=
  create_table_distinct_slots_distinct_addresses 3 5 6 (by decide) (by decide)

/-- C10: entries of the mints file that do not parse are silently dropped
before deduplication and planning: the target set is exactly the set of
distinct successfully parsed entries, and the loading pipeline is a total
function — an unparseable entry never fails the command. -/
theorem unparseable_mints_dropped (parse : String → Option Pubkey)
    (raws : List String) :
    (parsedTargets parse raws).Nodup ∧
    ∀ x : Pubkey, x ∈ parsedTargets parse raws ↔ ∃ s ∈ raws, parse s = some x := by
  refine ⟨List.nodup_dedup _, fun x => ?_⟩
  unfold parsedTargets
  rw [List.mem_dedup, List.mem_filterMap]

end ReferralCli
